import Mathlib

/-!
Shallow embedding of `sn_networking/src/network_discovery.rs`
(`NetworkDiscovery`): a per-bucket bounded FIFO table of candidate
network addresses, keyed by the Kademlia bucket index
`ilog2 (xor-distance local peer)`.

Modelling choices:
* A peer identifier and its derived kbucket key are identified and
  modelled as `Nat` (the key-derivation hash is injective and external
  to this repository; the spec treats the metric space abstractly as
  (a) random identifiers, (b) a distance function, (c) a bucket-index
  function that is "no bucket" at distance zero).
* `KBucketKey.distance` is XOR of the keys; `Distance::ilog2()` is
  `none` at `0` and `some (Nat.log2 d)` otherwise (floor of log2).
* The Rust `HashMap<u32, VecDeque<NetworkAddress>>` is modelled as an
  association list `List (Nat × List Addr)`; iteration order of the
  map is unspecified by contract, and no claim depends on it.
* The Rust `HashSet<PeerId>` argument and the rayon-parallel random
  draws are modelled as explicit lists of identifiers: randomness and
  parallel scheduling are abstracted into the list of drawn peers,
  everything downstream of the draws is pure and is translated
  branch-for-branch from the source.
-/

namespace NetworkDiscovery

/-- A peer identifier, identified with its kbucket key. -/
abbrev Addr := Nat

/-- Rust constant `MAX_PEERS_PER_BUCKET: usize = 5`. -/
def MAX_PEERS_PER_BUCKET : Nat := 5

/-- Rust constant `INITIAL_GENERATION_ATTEMPTS: usize = 10_000`. -/
def INITIAL_GENERATION_ATTEMPTS : Nat := 10000

/-- Rust constant `GENERATION_ATTEMPTS: usize = 1_000`. -/
def GENERATION_ATTEMPTS : Nat := 1000

/-- XOR distance between two kbucket keys (`peer_key.distance(&self_key)`). -/
def distance (a b : Addr) : Nat := a ^^^ b

/-- Floor of the base-2 logarithm, by structural recursion on a fuel bound
so that it reduces inside the kernel; `log2floor_eq_log2` below proves it
equal to `Nat.log2` (and hence to `Nat.log 2`). -/
def log2Aux : Nat → Nat → Nat
  | 0, _ => 0
  | fuel + 1, n => if 2 ≤ n then log2Aux fuel (n / 2) + 1 else 0

/-- Floor of the base-2 logarithm of `n` (`n` itself is always enough fuel). -/
def log2floor (n : Nat) : Nat := log2Aux n n

/-- Embeds `Distance::ilog2()`: `None` for distance `0`, otherwise the index of the
highest set bit, i.e. `floor (log2 d)`. -/
def ilog2 (d : Nat) : Option Nat :=
  if d = 0 then none else some (log2floor d)

/-- The candidate table `candidates: HashMap<u32, VecDeque<NetworkAddress>>`,
as an association list from bucket index to the bucket's FIFO queue
(front of the queue = head of the list). -/
abbrev Buckets := List (Nat × List Addr)

/-- Look up the queue of bucket `k` (the `self.candidates.entry(k)` probe:
`some` plays `Entry::Occupied`, `none` plays `Entry::Vacant`). -/
def findBucket (m : Buckets) (k : Nat) : Option (List Addr) :=
  (m.find? (fun p => p.1 == k)).map Prod.snd

/-- Replace the queue stored under key `k` (in-place mutation of an
occupied entry). -/
def setBucket (m : Buckets) (k : Nat) (q : List Addr) : Buckets :=
  m.map (fun p => if p.1 == k then (k, q) else p)

/-- Embeds `Self::generate_candidates(self_key, num_to_generate)`: classify each
drawn identifier by the bucket of its distance to `selfKey`, silently
discarding zero-distance draws (`.ilog2()?`). The `num_to_generate`
independent random draws of the rayon `par_iter` are the input list
`draws`; the function itself is the `filter_map` body. It is total:
generation cannot fail, it can only under-produce. -/
def generate_candidates (selfKey : Addr) (draws : List Nat) : List (Nat × Addr) :=
  draws.filterMap (fun c => (ilog2 (distance c selfKey)).map (fun i => (i, c)))

/-- One step of the construction-time bulk load in `Self::new`:
occupied bucket at capacity drops the candidate (`continue`), occupied
below capacity appends at the back, vacant inserts a one-element queue. -/
def constructStep (m : Buckets) (p : Nat × Addr) : Buckets :=
  match findBucket m p.1 with
  | some q =>
      if MAX_PEERS_PER_BUCKET ≤ q.length then m
      else setBucket m p.1 (q ++ [p.2])
  | none => m ++ [(p.1, [p.2])]

/-- The construction-time bulk load loop of `Self::new` over a stream of
(bucket, address) pairs, starting from the empty map. -/
def bulkLoad (pairs : List (Nat × Addr)) : Buckets :=
  pairs.foldl constructStep []

/-- Embeds `Self::new(self_peer_id)`: generate candidates from the draws and
bulk-load them into a fresh table. -/
def new (selfKey : Addr) (draws : List Nat) : Buckets :=
  bulkLoad (generate_candidates selfKey draws)

/-- One insertion of `Self::try_refresh_candidates`: occupied bucket at
capacity pops the front and pushes the new candidate at the back
(sliding window), occupied below capacity appends, vacant inserts a
one-element queue. -/
def refreshStep (m : Buckets) (p : Nat × Addr) : Buckets :=
  match findBucket m p.1 with
  | some q =>
      if MAX_PEERS_PER_BUCKET ≤ q.length then setBucket m p.1 (q.tail ++ [p.2])
      else setBucket m p.1 (q ++ [p.2])
  | none => m ++ [(p.1, [p.2])]

/-- Embeds `Self::try_refresh_candidates(&mut self)`: fold the refresh insertion
over a freshly generated batch. -/
def try_refresh_candidates (selfKey : Addr) (m : Buckets) (draws : List Nat) : Buckets :=
  (generate_candidates selfKey draws).foldl refreshStep m

/-- Embeds `Self::candidates(&self)`: one address per populated bucket, namely the
front of its queue (`values().filter_map(|c| c.front())`). Read-only:
it takes the table by value and returns a projection, never a new table. -/
def candidates (m : Buckets) : List Addr :=
  m.filterMap (fun p => p.2.head?)

/-- One iteration of the loop in `Self::handle_get_closest_query`: skip the
peer when its distance to `selfKey` has no `ilog2` (zero distance, the
local node itself); otherwise, at capacity and not already contained,
pop the front and push at the back; in every other occupied case append
at the back; vacant inserts a one-element queue. -/
def handleStep (selfKey : Addr) (m : Buckets) (peer : Nat) : Buckets :=
  match ilog2 (distance peer selfKey) with
  | none => m
  | some i =>
    match findBucket m i with
    | some q =>
        if MAX_PEERS_PER_BUCKET ≤ q.length ∧ peer ∉ q then
          setBucket m i (q.tail ++ [peer])
        else
          setBucket m i (q ++ [peer])
    | none => m ++ [(i, [peer])]

/-- Embeds `Self::handle_get_closest_query(&mut self, closest_peers)`: fold the
per-peer merge over the reported peer set (the `HashSet` iteration
order is unspecified; it is modelled as a list). -/
def handle_get_closest_query (selfKey : Addr) (m : Buckets) (peers : List Nat) : Buckets :=
  peers.foldl (handleStep selfKey) m

/-- The addresses a (bucket, address) stream carries for bucket `b`, in
stream order. -/
def streamAddrs (pairs : List (Nat × Addr)) (b : Nat) : List Addr :=
  (pairs.filter (fun p => p.1 == b)).map Prod.snd

/-- Capacity invariant of §3: every bucket's queue holds at most
`MAX_PEERS_PER_BUCKET` entries. -/
def CapacityInv (m : Buckets) : Prop :=
  ∀ p ∈ m, p.2.length ≤ MAX_PEERS_PER_BUCKET

/-- Bucket-correctness invariant of §8: every stored address sits under the
bucket index `ilog2` of its distance to the local key; in particular no
stored address is at distance zero. -/
def WellBucketed (selfKey : Addr) (m : Buckets) : Prop :=
  ∀ p ∈ m, ∀ a ∈ p.2, ilog2 (distance a selfKey) = some p.1

/-- Every bucket key present in the mapping maps to a non-empty queue. -/
def NonemptyInv (m : Buckets) : Prop :=
  ∀ p ∈ m, p.2 ≠ []

instance : DecidablePred CapacityInv := fun m =>
  inferInstanceAs (Decidable (∀ p ∈ m, p.2.length ≤ MAX_PEERS_PER_BUCKET))

instance : Decidable (NonemptyInv m) :=
  inferInstanceAs (Decidable (∀ p ∈ m, p.2 ≠ []))

instance : Decidable (WellBucketed selfKey m) :=
  inferInstanceAs (Decidable (∀ p ∈ m, ∀ a ∈ p.2, ilog2 (distance a selfKey) = some p.1))

/-! Sanity bridge: the fuel-based `log2floor` agrees with `Nat.log2` and
with Mathlib's floor logarithm `Nat.log 2`. -/

theorem log2Aux_eq_log2 (fuel : Nat) : ∀ n, n ≤ fuel → log2Aux fuel n = Nat.log2 n := by
  induction fuel with
  | zero =>
    intro n hn
    have h0 : n = 0 := Nat.le_zero.1 hn
    subst h0
    rw [Nat.log2]
    simp [log2Aux]
  | succ fuel ih =>
    intro n hn
    rw [Nat.log2]
    by_cases h2 : 2 ≤ n
    · have hdiv : n / 2 ≤ fuel := by
        have hlt : n / 2 < n := Nat.div_lt_self (by omega) (by omega)
        omega
      simp [log2Aux, h2, ih _ hdiv]
    · simp [log2Aux, h2]

theorem log2floor_eq_log2 (n : Nat) : log2floor n = Nat.log2 n :=
  log2Aux_eq_log2 n n le_rfl

theorem log2floor_eq_log_two (n : Nat) : log2floor n = Nat.log 2 n := by
  rw [log2floor_eq_log2]
  exact Nat.log2_eq_log_two

theorem findBucket_key {m : Buckets} {k : Nat} {q : List Addr}
    (h : findBucket m k = some q) : ∃ p ∈ m, p.1 = k ∧ p.2 = q := by
  unfold findBucket at h
  rcases Option.map_eq_some'.1 h with ⟨p, hp, hsnd⟩
  exact ⟨p, List.mem_of_find?_eq_some hp, by simpa using List.find?_some hp, hsnd⟩

theorem findBucket_cons (p : Nat × List Addr) (m : Buckets) (k : Nat) :
    findBucket (p :: m) k = if p.1 = k then some p.2 else findBucket m k := by
  by_cases h : p.1 = k <;> simp [findBucket, List.find?_cons, h]

theorem setBucket_cons (p : Nat × List Addr) (m : Buckets) (k : Nat) (q : List Addr) :
    setBucket (p :: m) k q = (if p.1 = k then (k, q) else p) :: setBucket m k q := by
  by_cases h : p.1 = k <;> simp [setBucket, h]

theorem findBucket_setBucket_self (m : Buckets) (k : Nat) (q : List Addr) :
    findBucket (setBucket m k q) k = (findBucket m k).map (fun _ => q) := by
  induction m with
  | nil => rfl
  | cons p rest ih =>
    rw [setBucket_cons]
    by_cases h : p.1 = k
    · simp [h, findBucket_cons]
    · simp [h, findBucket_cons, ih]

theorem findBucket_setBucket_ne (m : Buckets) (k k' : Nat) (q : List Addr)
    (h : k' ≠ k) : findBucket (setBucket m k q) k' = findBucket m k' := by
  induction m with
  | nil => rfl
  | cons p rest ih =>
    rw [setBucket_cons]
    by_cases hp : p.1 = k
    · have hne : k ≠ k' := fun hh => h hh.symm
      simp [hp, findBucket_cons, hne, ih]
    · by_cases hp' : p.1 = k'
      · simp [hp, findBucket_cons, hp', h]
      · simp [hp, findBucket_cons, hp', ih]

theorem findBucket_append_single (m : Buckets) (k k' : Nat) (q : List Addr) :
    findBucket (m ++ [(k, q)]) k' =
      ((findBucket m k').or (if k = k' then some q else none)) := by
  unfold findBucket
  rw [List.find?_append]
  cases hf : List.find? (fun p => p.1 == k') m
  · by_cases h : k = k'
    · simp [List.find?, h, hf]
    · have hb : (k == k') = false := by simpa using h
      simp [List.find?, hb, hf, h]
  · by_cases h : k = k'
    · simp [List.find?, h, hf]
    · have hb : (k == k') = false := by simpa using h
      simp [List.find?, hb, hf, h]

/-! Claim C7: self-merge exclusion. -/

/-- C7: feeding the local node's own identifier (zero XOR distance from the
local key) into `handle_get_closest_query` leaves the candidate table
completely unchanged: no bucket is created and no queue is mutated. -/
theorem self_query_unchanged (selfKey : Addr) (m : Buckets) :
    handle_get_closest_query selfKey m [selfKey] = m := by
  simp [handle_get_closest_query, handleStep, distance, Nat.xor_self, ilog2]

/-! Claim C1: duplicate at capacity is appended without eviction. -/

/-- C1: when bucket `b` already holds exactly `MAX_PEERS_PER_BUCKET` (5)
entries and already contains address `H`, running
`handle_get_closest_query` on a peer set whose only member maps to `H`
and bucket `b` appends `H` at the back without evicting the front (the
queue stays a prefix of the result), leaving bucket `b` with 6 entries. -/
theorem dup_at_capacity (selfKey H b : Nat) (m : Buckets) (q : List Addr)
    (hfind : findBucket m b = some q) (hlen : q.length = MAX_PEERS_PER_BUCKET)
    (hmem : H ∈ q) (hb : ilog2 (distance H selfKey) = some b) :
    findBucket (handle_get_closest_query selfKey m [H]) b = some (q ++ [H]) ∧
    (q ++ [H]).length = 6 := by
  have hstep : handle_get_closest_query selfKey m [H] = setBucket m b (q ++ [H]) := by
    simp only [handle_get_closest_query, List.foldl_cons, List.foldl_nil, handleStep, hb, hfind]
    have hcond : ¬ (MAX_PEERS_PER_BUCKET ≤ q.length ∧ H ∉ q) := by
      intro hc
      exact hc.2 hmem
    simp [hcond]
  constructor
  · rw [hstep, findBucket_setBucket_self, hfind]
    rfl
  · simp [hlen, MAX_PEERS_PER_BUCKET]

theorem dup_at_capacity_witness :
    findBucket [(3, [8, 9, 10, 11, 12])] 3 = some [8, 9, 10, 11, 12] ∧
    ([8, 9, 10, 11, 12] : List Addr).length = MAX_PEERS_PER_BUCKET ∧
    (8 : Addr) ∈ [8, 9, 10, 11, 12] ∧
    ilog2 (distance 8 0) = some 3 ∧
    (findBucket (handle_get_closest_query 0 [(3, [8, 9, 10, 11, 12])] [8]) 3
        = some ([8, 9, 10, 11, 12] ++ [8]) ∧
      ([8, 9, 10, 11, 12] ++ [8] : List Addr).length = 6) :=
  ⟨by decide, by decide, by decide, by decide,
    dup_at_capacity 0 8 3 _ _ (by decide) (by decide) (by decide) (by decide)⟩

/-! Claim C9: the generator cannot fail and under-produces exactly by the
number of zero-distance draws. -/

theorem generate_candidates_length (selfKey : Addr) (draws : List Nat) :
    (generate_candidates selfKey draws).length
      = draws.length - draws.countP (fun c => distance c selfKey == 0) := by
  induction draws with
  | nil => rfl
  | cons d rest ih =>
    by_cases h : distance d selfKey = 0
    · simp [generate_candidates, ilog2, h, List.countP_cons, List.filterMap_cons] at *
      omega
    · have hc := List.countP_le_length (fun c => distance c selfKey == 0) (l := rest)
      simp [generate_candidates, ilog2, h, List.countP_cons, List.filterMap_cons] at *
      omega

/-- C9: for an attempt count of `draws.length`, `generate_candidates`
returns a collection of (bucket index, address) pairs of size exactly the
attempt count minus the number of zero-distance draws (which are silently
discarded), hence of size at most the attempt count; being a total
function it never fails or signals an error to its caller. -/
theorem generation_size (selfKey : Addr) (draws : List Nat) :
    (generate_candidates selfKey draws).length
        = draws.length - draws.countP (fun c => distance c selfKey == 0) ∧
    (generate_candidates selfKey draws).length ≤ draws.length := by
  refine ⟨generate_candidates_length selfKey draws, ?_⟩
  rw [generate_candidates_length selfKey draws]
  omega

/-! Claim C6: candidate projection. -/

/-- C6: `candidates` yields exactly one address per currently-populated
bucket (the entries whose queue is non-empty), and for each such bucket
the yielded address is the bucket's current front (oldest) entry; being a
pure projection of the table it does not modify it. -/
theorem candidates_projection (m : Buckets) :
    candidates m = (m.filter (fun p => !p.2.isEmpty)).map (fun p => p.2.headD 0) ∧
    (candidates m).length = (m.filter (fun p => !p.2.isEmpty)).length := by
  have h : candidates m = (m.filter (fun p => !p.2.isEmpty)).map (fun p => p.2.headD 0) := by
    induction m with
    | nil => rfl
    | cons p rest ih =>
      cases hq : p.2 with
      | nil =>
        simpa [candidates, List.filterMap_cons, List.filter_cons, hq] using ih
      | cons a t =>
        simpa [candidates, List.filterMap_cons, List.filter_cons, hq] using ih
  exact ⟨h, by rw [h, List.length_map]⟩



/-! Claim C4: construction-time drop policy keeps the first five
addresses per bucket. -/

theorem streamAddrs_cons_eq (p : Nat × Addr) (rest : List (Nat × Addr)) (b : Nat)
    (hk : p.1 = b) : streamAddrs (p :: rest) b = p.2 :: streamAddrs rest b := by
  simp [streamAddrs, List.filter_cons, hk]

theorem streamAddrs_cons_ne (p : Nat × Addr) (rest : List (Nat × Addr)) (b : Nat)
    (hk : p.1 ≠ b) : streamAddrs (p :: rest) b = streamAddrs rest b := by
  have hb : (p.1 == b) = false := by simpa using hk
  simp [streamAddrs, List.filter_cons, hb]

theorem findBucket_constructStep_ne (m : Buckets) (p : Nat × Addr) (b : Nat)
    (hk : p.1 ≠ b) : findBucket (constructStep m p) b = findBucket m b := by
  unfold constructStep
  cases hf : findBucket m p.1 with
  | none =>
    rw [findBucket_append_single]
    simp [hk]
  | some q =>
    by_cases hcap : MAX_PEERS_PER_BUCKET ≤ q.length
    · simp [hcap]
    · simp only [hcap, if_false]
      exact findBucket_setBucket_ne m p.1 b (q ++ [p.2]) (fun hh => hk hh.symm)

theorem bulkLoad_from_some (pairs : List (Nat × Addr)) :
    ∀ (m : Buckets) (b : Nat) (q : List Addr), findBucket m b = some q →
      findBucket (pairs.foldl constructStep m) b
        = some (q ++ (streamAddrs pairs b).take (MAX_PEERS_PER_BUCKET - q.length)) := by
  induction pairs with
  | nil =>
    intro m b q h
    simp [streamAddrs, h]
  | cons p rest ih =>
    intro m b q h
    rw [List.foldl_cons]
    by_cases hk : p.1 = b
    · rw [streamAddrs_cons_eq p rest b hk]
      by_cases hcap : MAX_PEERS_PER_BUCKET ≤ q.length
      · have hstep : constructStep m p = m := by
          simp [constructStep, hk, h, hcap]
        have h5 : MAX_PEERS_PER_BUCKET - q.length = 0 := by omega
        rw [hstep, ih m b q h, h5]
        simp
      · have hstep : constructStep m p = setBucket m b (q ++ [p.2]) := by
          simp [constructStep, hk, h, hcap]
        have hfind' : findBucket (setBucket m b (q ++ [p.2])) b = some (q ++ [p.2]) := by
          rw [findBucket_setBucket_self, h]
          rfl
        rw [hstep, ih _ b _ hfind']
        have harith : MAX_PEERS_PER_BUCKET - q.length
            = (MAX_PEERS_PER_BUCKET - (q ++ [p.2]).length) + 1 := by
          simp only [List.length_append, List.length_cons, List.length_nil]
          omega
        rw [harith, List.take_succ_cons]
        simp
    · rw [streamAddrs_cons_ne p rest b hk]
      refine ih (constructStep m p) b q ?_
      rw [findBucket_constructStep_ne m p b hk]
      exact h

theorem bulkLoad_from_none (pairs : List (Nat × Addr)) :
    ∀ (m : Buckets) (b : Nat), findBucket m b = none →
      findBucket (pairs.foldl constructStep m) b
        = if streamAddrs pairs b = [] then none
          else some ((streamAddrs pairs b).take MAX_PEERS_PER_BUCKET) := by
  induction pairs with
  | nil =>
    intro m b h
    simp [streamAddrs, h]
  | cons p rest ih =>
    intro m b h
    rw [List.foldl_cons]
    by_cases hk : p.1 = b
    · have hstep : constructStep m p = m ++ [(b, [p.2])] := by
        simp [constructStep, hk, h]
      have hfind' : findBucket (m ++ [(b, [p.2])]) b = some [p.2] := by
        rw [findBucket_append_single, h]
        simp
      rw [hstep, bulkLoad_from_some rest _ b [p.2] hfind', streamAddrs_cons_eq p rest b hk]
      have harith : MAX_PEERS_PER_BUCKET = (MAX_PEERS_PER_BUCKET - ([p.2] : List Addr).length) + 1 := by
        simp [MAX_PEERS_PER_BUCKET]
      rw [if_neg (List.cons_ne_nil _ _)]
      rw [harith, List.take_succ_cons]
      simp
    · rw [streamAddrs_cons_ne p rest b hk]
      refine ih (constructStep m p) b ?_
      rw [findBucket_constructStep_ne m p b hk]
      exact h

/-- C4: during construction-time bulk load, for every input stream of
(bucket, address) pairs carrying more than `MAX_PEERS_PER_BUCKET` (5)
addresses for some bucket `b`, the table retains for `b` exactly the
first 5 addresses encountered in stream order and drops every later
candidate for `b`. -/
theorem construction_first_five (pairs : List (Nat × Addr)) (b : Nat)
    (h : MAX_PEERS_PER_BUCKET < (streamAddrs pairs b).length) :
    findBucket (bulkLoad pairs) b = some ((streamAddrs pairs b).take MAX_PEERS_PER_BUCKET) ∧
    ((streamAddrs pairs b).take MAX_PEERS_PER_BUCKET).length = MAX_PEERS_PER_BUCKET := by
  have h0 : findBucket ([] : Buckets) b = none := rfl
  have hne : streamAddrs pairs b ≠ [] := by
    intro he
    rw [he] at h
    simp at h
  constructor
  · rw [bulkLoad, bulkLoad_from_none pairs [] b h0]
    simp [hne]
  · rw [List.length_take]
    omega

theorem construction_first_five_witness :
    MAX_PEERS_PER_BUCKET
        < (streamAddrs [(3,1),(3,2),(3,3),(3,4),(3,5),(3,6),(3,7)] 3).length ∧
    (findBucket (bulkLoad [(3,1),(3,2),(3,3),(3,4),(3,5),(3,6),(3,7)]) 3
        = some ((streamAddrs [(3,1),(3,2),(3,3),(3,4),(3,5),(3,6),(3,7)] 3).take
            MAX_PEERS_PER_BUCKET) ∧
      ((streamAddrs [(3,1),(3,2),(3,3),(3,4),(3,5),(3,6),(3,7)] 3).take
          MAX_PEERS_PER_BUCKET).length = MAX_PEERS_PER_BUCKET) :=
  ⟨by decide, construction_first_five [(3,1),(3,2),(3,3),(3,4),(3,5),(3,6),(3,7)] 3 (by decide)⟩

/-! Claim C5: refresh top-up sliding-window policy; claim C2: capacity
invariant (corrected: the feedback merge path can overshoot). -/

/-- C5: for the per-candidate insertion of a refresh top-up
(`refreshStep`, folded by `try_refresh_candidates`): when bucket `b` is
at capacity the insertion evicts the front (oldest) entry, shifts the
remaining entries forward, appends the new candidate at the back and
leaves the total queue length unchanged; when `b` is below capacity the
candidate is appended at the back; when `b` is absent a new one-element
queue is created. -/
theorem refresh_sliding_window (m : Buckets) (b : Nat) (a : Addr) (q : List Addr) :
    (findBucket m b = some q → q.length = MAX_PEERS_PER_BUCKET →
      findBucket (refreshStep m (b, a)) b = some (q.tail ++ [a]) ∧
      (q.tail ++ [a]).length = q.length) ∧
    (findBucket m b = some q → q.length < MAX_PEERS_PER_BUCKET →
      findBucket (refreshStep m (b, a)) b = some (q ++ [a])) ∧
    (findBucket m b = none → findBucket (refreshStep m (b, a)) b = some [a]) := by
  refine ⟨fun hfind hlen => ?_, fun hfind hlen => ?_, fun hfind => ?_⟩
  · have hcap : MAX_PEERS_PER_BUCKET ≤ q.length := by omega
    have hstep : refreshStep m (b, a) = setBucket m b (q.tail ++ [a]) := by
      simp [refreshStep, hfind, hcap]
    constructor
    · rw [hstep, findBucket_setBucket_self, hfind]
      rfl
    · have h5 : q.length = 5 := by simpa [MAX_PEERS_PER_BUCKET] using hlen
      rw [List.length_append, List.length_tail, h5]
      rfl
  · have hcap : ¬ MAX_PEERS_PER_BUCKET ≤ q.length := by omega
    have hstep : refreshStep m (b, a) = setBucket m b (q ++ [a]) := by
      simp [refreshStep, hfind, hcap]
    rw [hstep, findBucket_setBucket_self, hfind]
    rfl
  · have hstep : refreshStep m (b, a) = m ++ [(b, [a])] := by
      simp [refreshStep, hfind]
    rw [hstep, findBucket_append_single, hfind]
    simp

theorem refresh_sliding_window_witness :
    (findBucket [(3, [10, 11, 12, 13, 14])] 3 = some [10, 11, 12, 13, 14] ∧
      ([10, 11, 12, 13, 14] : List Addr).length = MAX_PEERS_PER_BUCKET ∧
      findBucket (refreshStep [(3, [10, 11, 12, 13, 14])] (3, 20)) 3
          = some ([10, 11, 12, 13, 14].tail ++ [20]) ∧
      (([10, 11, 12, 13, 14] : List Addr).tail ++ [20]).length
          = ([10, 11, 12, 13, 14] : List Addr).length) ∧
    (findBucket [(3, [10])] 3 = some [10] ∧
      ([10] : List Addr).length < MAX_PEERS_PER_BUCKET ∧
      findBucket (refreshStep [(3, [10])] (3, 20)) 3 = some ([10] ++ [20])) ∧
    (findBucket ([] : Buckets) 3 = none ∧
      findBucket (refreshStep [] (3, 20)) 3 = some [20]) :=
  ⟨⟨by decide, by decide,
      (refresh_sliding_window [(3, [10, 11, 12, 13, 14])] 3 20 [10, 11, 12, 13, 14]).1
        (by decide) (by decide)⟩,
    ⟨by decide, by decide,
      (refresh_sliding_window [(3, [10])] 3 20 [10]).2.1 (by decide) (by decide)⟩,
    ⟨by decide,
      (refresh_sliding_window [] 3 20 []).2.2 (by decide)⟩⟩

theorem mem_setBucket {m : Buckets} {k : Nat} {q : List Addr} {x : Nat × List Addr}
    (hx : x ∈ setBucket m k q) : x = (k, q) ∨ x ∈ m := by
  unfold setBucket at hx
  rcases List.mem_map.1 hx with ⟨y, hy, hxy⟩
  by_cases h : y.1 = k
  · left
    rw [← hxy]
    simp [h]
  · right
    have hb : (y.1 == k) = false := by simpa using h
    rw [← hxy]
    simp [hb]
    exact hy

theorem cap_constructStep {m : Buckets} (p : Nat × Addr) (h : CapacityInv m) :
    CapacityInv (constructStep m p) := by
  unfold constructStep
  cases hf : findBucket m p.1 with
  | none =>
    intro x hx
    rcases List.mem_append.1 hx with hx | hx
    · exact h x hx
    · simp at hx
      rw [hx]
      simp [MAX_PEERS_PER_BUCKET]
  | some q =>
    by_cases hcap : MAX_PEERS_PER_BUCKET ≤ q.length
    · simpa [hcap] using h
    · simp only [hcap, if_false]
      intro x hx
      rcases mem_setBucket hx with rfl | hx
      · simp only [List.length_append, List.length_cons, List.length_nil]
        omega
      · exact h x hx

theorem cap_refreshStep {m : Buckets} (p : Nat × Addr) (h : CapacityInv m) :
    CapacityInv (refreshStep m p) := by
  unfold refreshStep
  cases hf : findBucket m p.1 with
  | none =>
    intro x hx
    rcases List.mem_append.1 hx with hx | hx
    · exact h x hx
    · simp at hx
      rw [hx]
      simp [MAX_PEERS_PER_BUCKET]
  | some q =>
    have hq : q.length ≤ MAX_PEERS_PER_BUCKET := by
      rcases findBucket_key hf with ⟨pp, hpp, _, hq⟩
      rw [← hq]
      exact h pp hpp
    by_cases hcap : MAX_PEERS_PER_BUCKET ≤ q.length
    · simp only [hcap, if_true]
      intro x hx
      rcases mem_setBucket hx with hx1 | hx1
      · have hM : MAX_PEERS_PER_BUCKET = 5 := rfl
        rw [hx1]
        simp only [List.length_append, List.length_tail, List.length_cons, List.length_nil]
        omega
      · exact h x hx1
    · simp only [hcap, if_false]
      intro x hx
      rcases mem_setBucket hx with rfl | hx
      · simp only [List.length_append, List.length_cons, List.length_nil]
        omega
      · exact h x hx

theorem cap_foldl_construct (pairs : List (Nat × Addr)) :
    ∀ m : Buckets, CapacityInv m → CapacityInv (pairs.foldl constructStep m) := by
  induction pairs with
  | nil => exact fun m h => h
  | cons p rest ih => exact fun m h => ih (constructStep m p) (cap_constructStep p h)

theorem cap_foldl_refresh (pairs : List (Nat × Addr)) :
    ∀ m : Buckets, CapacityInv m → CapacityInv (pairs.foldl refreshStep m) := by
  induction pairs with
  | nil => exact fun m h => h
  | cons p rest ih => exact fun m h => ih (refreshStep m p) (cap_refreshStep p h)

/-- C2 counterexample: the claim fails on the feedback path. Starting from
a table built by `new` whose bucket 3 holds the five addresses
8..12 (local key 0), one `handle_get_closest_query` call reporting the
duplicate peer 8 leaves bucket 3 with six entries, violating the
capacity bound. -/
theorem capacity_cex :
    ¬ CapacityInv (handle_get_closest_query 0 (new 0 [8, 9, 10, 11, 12]) [8]) := by
  decide

/-- C2 amended: after construction every bucket's queue length is at most
`MAX_PEERS_PER_BUCKET` (5), and `try_refresh_candidates` preserves that
bound from any state satisfying it; `handle_get_closest_query` does not
preserve the bound (see the counterexample: appending a duplicate at
capacity overshoots it). -/
theorem capacity_new_refresh :
    (∀ (selfKey : Addr) (draws : List Nat), CapacityInv (new selfKey draws)) ∧
    (∀ (selfKey : Addr) (m : Buckets) (draws : List Nat),
      CapacityInv m → CapacityInv (try_refresh_candidates selfKey m draws)) := by
  constructor
  · intro selfKey draws
    refine cap_foldl_construct _ [] ?_
    intro x hx
    cases hx
  · intro selfKey m draws h
    exact cap_foldl_refresh _ m h

theorem capacity_new_refresh_witness :
    CapacityInv (new 0 [8, 9, 10, 11, 12, 13]) ∧
    CapacityInv [(3, [8, 9])] ∧
    CapacityInv (try_refresh_candidates 0 [(3, [8, 9])] [10, 11]) :=
  ⟨capacity_new_refresh.1 0 [8, 9, 10, 11, 12, 13], by decide,
    capacity_new_refresh.2 0 [(3, [8, 9])] [10, 11] (by decide)⟩

/-! Claim C8: stored bucket indices match the floor-log2 of the XOR
distance, and zero-distance addresses are excluded. -/

theorem generate_good (selfKey : Addr) (draws : List Nat) :
    ∀ p ∈ generate_candidates selfKey draws, ilog2 (distance p.2 selfKey) = some p.1 := by
  intro p hp
  rcases List.mem_filterMap.1 hp with ⟨c, _, hfc⟩
  rcases Option.map_eq_some'.1 hfc with ⟨i, hi, hpi⟩
  rw [← hpi]
  exact hi

theorem wb_setBucket {selfKey : Addr} {m : Buckets} {k : Nat} {q' : List Addr}
    (h : WellBucketed selfKey m)
    (hq : ∀ a ∈ q', ilog2 (distance a selfKey) = some k) :
    WellBucketed selfKey (setBucket m k q') := by
  intro x hx
  rcases mem_setBucket hx with hx1 | hx1
  · rw [hx1]
    exact hq
  · exact h x hx1

theorem wb_appendEntry {selfKey : Addr} {m : Buckets} {k : Nat} {q' : List Addr}
    (h : WellBucketed selfKey m)
    (hq : ∀ a ∈ q', ilog2 (distance a selfKey) = some k) :
    WellBucketed selfKey (m ++ [(k, q')]) := by
  intro x hx
  rcases List.mem_append.1 hx with hx1 | hx1
  · exact h x hx1
  · simp at hx1
    rw [hx1]
    exact hq

theorem wb_queue_of_find {selfKey : Addr} {m : Buckets} {k : Nat} {q : List Addr}
    (h : WellBucketed selfKey m) (hf : findBucket m k = some q) :
    ∀ a ∈ q, ilog2 (distance a selfKey) = some k := by
  rcases findBucket_key hf with ⟨pp, hpp, hk, hq⟩
  intro a ha
  rw [← hk]
  refine h pp hpp a ?_
  rw [hq]
  exact ha

theorem wb_constructStep {selfKey : Addr} {m : Buckets} (p : Nat × Addr)
    (h : WellBucketed selfKey m) (hp : ilog2 (distance p.2 selfKey) = some p.1) :
    WellBucketed selfKey (constructStep m p) := by
  unfold constructStep
  cases hf : findBucket m p.1 with
  | none =>
    refine wb_appendEntry h ?_
    intro a ha
    simp at ha
    rw [ha]
    exact hp
  | some q =>
    by_cases hcap : MAX_PEERS_PER_BUCKET ≤ q.length
    · simpa [hcap] using h
    · simp only [hcap, if_false]
      refine wb_setBucket h ?_
      intro a ha
      rcases List.mem_append.1 ha with ha | ha
      · exact wb_queue_of_find h hf a ha
      · simp at ha
        rw [ha]
        exact hp

theorem wb_refreshStep {selfKey : Addr} {m : Buckets} (p : Nat × Addr)
    (h : WellBucketed selfKey m) (hp : ilog2 (distance p.2 selfKey) = some p.1) :
    WellBucketed selfKey (refreshStep m p) := by
  unfold refreshStep
  cases hf : findBucket m p.1 with
  | none =>
    refine wb_appendEntry h ?_
    intro a ha
    simp at ha
    rw [ha]
    exact hp
  | some q =>
    by_cases hcap : MAX_PEERS_PER_BUCKET ≤ q.length
    · simp only [hcap, if_true]
      refine wb_setBucket h ?_
      intro a ha
      rcases List.mem_append.1 ha with ha | ha
      · exact wb_queue_of_find h hf a (List.mem_of_mem_tail ha)
      · simp at ha
        rw [ha]
        exact hp
    · simp only [hcap, if_false]
      refine wb_setBucket h ?_
      intro a ha
      rcases List.mem_append.1 ha with ha | ha
      · exact wb_queue_of_find h hf a ha
      · simp at ha
        rw [ha]
        exact hp

theorem wb_handleStep {selfKey : Addr} {m : Buckets} (peer : Nat)
    (h : WellBucketed selfKey m) :
    WellBucketed selfKey (handleStep selfKey m peer) := by
  unfold handleStep
  cases hi : ilog2 (distance peer selfKey) with
  | none => exact h
  | some i =>
    dsimp only
    cases hf : findBucket m i with
    | none =>
      refine wb_appendEntry h ?_
      intro a ha
      simp at ha
      rw [ha]
      exact hi
    | some q =>
      dsimp only
      by_cases hcond : MAX_PEERS_PER_BUCKET ≤ q.length ∧ peer ∉ q
      · rw [if_pos hcond]
        refine wb_setBucket h ?_
        intro a ha
        rcases List.mem_append.1 ha with ha | ha
        · exact wb_queue_of_find h hf a (List.mem_of_mem_tail ha)
        · simp at ha
          rw [ha]
          exact hi
      · rw [if_neg hcond]
        refine wb_setBucket h ?_
        intro a ha
        rcases List.mem_append.1 ha with ha | ha
        · exact wb_queue_of_find h hf a ha
        · simp at ha
          rw [ha]
          exact hi

theorem wb_foldl_construct (selfKey : Addr) (pairs : List (Nat × Addr)) :
    ∀ m : Buckets, WellBucketed selfKey m →
      (∀ p ∈ pairs, ilog2 (distance p.2 selfKey) = some p.1) →
      WellBucketed selfKey (pairs.foldl constructStep m) := by
  induction pairs with
  | nil => exact fun m h _ => h
  | cons p rest ih =>
    intro m h hgood
    exact ih (constructStep m p)
      (wb_constructStep p h (hgood p (List.mem_cons_self p rest)))
      (fun x hx => hgood x (List.mem_cons_of_mem p hx))

theorem wb_foldl_refresh (selfKey : Addr) (pairs : List (Nat × Addr)) :
    ∀ m : Buckets, WellBucketed selfKey m →
      (∀ p ∈ pairs, ilog2 (distance p.2 selfKey) = some p.1) →
      WellBucketed selfKey (pairs.foldl refreshStep m) := by
  induction pairs with
  | nil => exact fun m h _ => h
  | cons p rest ih =>
    intro m h hgood
    exact ih (refreshStep m p)
      (wb_refreshStep p h (hgood p (List.mem_cons_self p rest)))
      (fun x hx => hgood x (List.mem_cons_of_mem p hx))

theorem wb_foldl_handle (selfKey : Addr) (peers : List Nat) :
    ∀ m : Buckets, WellBucketed selfKey m →
      WellBucketed selfKey (peers.foldl (handleStep selfKey) m) := by
  induction peers with
  | nil => exact fun m h => h
  | cons peer rest ih =>
    intro m h
    exact ih (handleStep selfKey m peer) (wb_handleStep peer h)

/-- C8: the bucket-index function is exactly `floor (log2 d)` for nonzero
distance `d`; every address stored via generation (`new`,
`try_refresh_candidates`) or feedback (`handle_get_closest_query`) sits
under the bucket index `ilog2` of its XOR distance to the local key
(`WellBucketed`, preserved by all three operations from the empty
table); consequently every stored address has nonzero distance — an
address at distance 0 never appears under any bucket — and its bucket
index equals `Nat.log 2` of its distance. -/
theorem bucket_index_correct :
    (∀ d : Nat, d ≠ 0 → ilog2 d = some (Nat.log 2 d)) ∧
    (∀ (selfKey : Addr) (draws : List Nat), WellBucketed selfKey (new selfKey draws)) ∧
    (∀ (selfKey : Addr) (m : Buckets) (draws : List Nat), WellBucketed selfKey m →
      WellBucketed selfKey (try_refresh_candidates selfKey m draws)) ∧
    (∀ (selfKey : Addr) (m : Buckets) (peers : List Nat), WellBucketed selfKey m →
      WellBucketed selfKey (handle_get_closest_query selfKey m peers)) ∧
    (∀ (selfKey : Addr) (m : Buckets), WellBucketed selfKey m →
      ∀ p ∈ m, ∀ a ∈ p.2,
        distance a selfKey ≠ 0 ∧ p.1 = Nat.log 2 (distance a selfKey)) := by
  refine ⟨?_, ?_, ?_, ?_, ?_⟩
  · intro d hd
    rw [ilog2, if_neg hd, log2floor_eq_log_two]
  · intro selfKey draws
    refine wb_foldl_construct selfKey _ [] (fun x hx => absurd hx (List.not_mem_nil x)) ?_
    exact generate_good selfKey draws
  · intro selfKey m draws h
    exact wb_foldl_refresh selfKey _ m h (generate_good selfKey draws)
  · intro selfKey m peers h
    exact wb_foldl_handle selfKey peers m h
  · intro selfKey m h p hp a ha
    have := h p hp a ha
    rw [ilog2] at this
    by_cases hd : distance a selfKey = 0
    · rw [if_pos hd] at this
      exact absurd this (by simp)
    · rw [if_neg hd] at this
      refine ⟨hd, ?_⟩
      rw [← log2floor_eq_log_two]
      exact (Option.some.injEq _ _ ▸ this).symm

theorem bucket_index_correct_witness :
    ilog2 8 = some (Nat.log 2 8) ∧
    WellBucketed 0 (new 0 [8, 9]) ∧
    WellBucketed 0 (try_refresh_candidates 0 [(3, [8])] [9]) ∧
    WellBucketed 0 (handle_get_closest_query 0 [(3, [8])] [9]) ∧
    (∀ p ∈ ([(3, [8])] : Buckets), ∀ a ∈ p.2,
      distance a 0 ≠ 0 ∧ p.1 = Nat.log 2 (distance a 0)) :=
  ⟨bucket_index_correct.1 8 (by decide),
    bucket_index_correct.2.1 0 [8, 9],
    bucket_index_correct.2.2.1 0 [(3, [8])] [9] (by decide),
    bucket_index_correct.2.2.2.1 0 [(3, [8])] [9] (by decide),
    bucket_index_correct.2.2.2.2 0 [(3, [8])] (by decide)⟩


/-! Claim C10: populated buckets are never empty, so `candidates` yields
one address per bucket key; claim C3: the merge path nevertheless
inserts duplicates (a code bug relative to its own comment). -/

theorem nonempty_setBucket {m : Buckets} {k : Nat} {q' : List Addr}
    (h : NonemptyInv m) (hq : q' ≠ []) : NonemptyInv (setBucket m k q') := by
  intro x hx
  rcases mem_setBucket hx with hx1 | hx1
  · rw [hx1]
    exact hq
  · exact h x hx1

theorem nonempty_appendEntry {m : Buckets} {k : Nat} {q' : List Addr}
    (h : NonemptyInv m) (hq : q' ≠ []) : NonemptyInv (m ++ [(k, q')]) := by
  intro x hx
  rcases List.mem_append.1 hx with hx1 | hx1
  · exact h x hx1
  · simp at hx1
    rw [hx1]
    exact hq

theorem nonempty_constructStep {m : Buckets} (p : Nat × Addr) (h : NonemptyInv m) :
    NonemptyInv (constructStep m p) := by
  unfold constructStep
  cases hf : findBucket m p.1 with
  | none => exact nonempty_appendEntry h (by simp)
  | some q =>
    by_cases hcap : MAX_PEERS_PER_BUCKET ≤ q.length
    · simpa [hcap] using h
    · simp only [hcap, if_false]
      exact nonempty_setBucket h (by simp)

theorem nonempty_refreshStep {m : Buckets} (p : Nat × Addr) (h : NonemptyInv m) :
    NonemptyInv (refreshStep m p) := by
  unfold refreshStep
  cases hf : findBucket m p.1 with
  | none => exact nonempty_appendEntry h (by simp)
  | some q =>
    by_cases hcap : MAX_PEERS_PER_BUCKET ≤ q.length
    · simp only [hcap, if_true]
      exact nonempty_setBucket h (by simp)
    · simp only [hcap, if_false]
      exact nonempty_setBucket h (by simp)

theorem nonempty_handleStep {selfKey : Addr} {m : Buckets} (peer : Nat)
    (h : NonemptyInv m) : NonemptyInv (handleStep selfKey m peer) := by
  unfold handleStep
  cases hi : ilog2 (distance peer selfKey) with
  | none => exact h
  | some i =>
    dsimp only
    cases hf : findBucket m i with
    | none => exact nonempty_appendEntry h (by simp)
    | some q =>
      dsimp only
      by_cases hcond : MAX_PEERS_PER_BUCKET ≤ q.length ∧ peer ∉ q
      · rw [if_pos hcond]
        exact nonempty_setBucket h (by simp)
      · rw [if_neg hcond]
        exact nonempty_setBucket h (by simp)

theorem nonempty_foldl_construct (pairs : List (Nat × Addr)) :
    ∀ m : Buckets, NonemptyInv m → NonemptyInv (pairs.foldl constructStep m) := by
  induction pairs with
  | nil => exact fun m h => h
  | cons p rest ih => exact fun m h => ih (constructStep m p) (nonempty_constructStep p h)

theorem nonempty_foldl_refresh (pairs : List (Nat × Addr)) :
    ∀ m : Buckets, NonemptyInv m → NonemptyInv (pairs.foldl refreshStep m) := by
  induction pairs with
  | nil => exact fun m h => h
  | cons p rest ih => exact fun m h => ih (refreshStep m p) (nonempty_refreshStep p h)

theorem nonempty_foldl_handle (selfKey : Addr) (peers : List Nat) :
    ∀ m : Buckets, NonemptyInv m → NonemptyInv (peers.foldl (handleStep selfKey) m) := by
  induction peers with
  | nil => exact fun m h => h
  | cons peer rest ih => exact fun m h => ih (handleStep selfKey m peer) (nonempty_handleStep peer h)

theorem candidates_length_eq (m : Buckets) (h : NonemptyInv m) :
    (candidates m).length = m.length := by
  induction m with
  | nil => rfl
  | cons p rest ih =>
    obtain ⟨k, q⟩ := p
    have hp : q ≠ [] := h (k, q) (List.mem_cons_self _ rest)
    have hrest : NonemptyInv rest := fun x hx => h x (List.mem_cons_of_mem _ hx)
    have hlen := ih hrest
    cases q with
    | nil => exact absurd rfl hp
    | cons a t =>
      simp only [candidates, List.filterMap_cons, List.head?_cons, List.length_cons]
      simp only [candidates] at hlen
      rw [hlen]

/-- C10: every bucket key present in the mapping maps to a non-empty
queue — queues are created with one element and every front eviction is
immediately followed by a back insertion — and this is preserved by
`new` (from the empty table), `try_refresh_candidates` and
`handle_get_closest_query`; consequently `candidates` yields exactly as
many addresses as there are bucket keys in the mapping. -/
theorem populated_buckets_nonempty :
    (∀ (selfKey : Addr) (draws : List Nat), NonemptyInv (new selfKey draws)) ∧
    (∀ (selfKey : Addr) (m : Buckets) (draws : List Nat),
      NonemptyInv m → NonemptyInv (try_refresh_candidates selfKey m draws)) ∧
    (∀ (selfKey : Addr) (m : Buckets) (peers : List Nat),
      NonemptyInv m → NonemptyInv (handle_get_closest_query selfKey m peers)) ∧
    (∀ m : Buckets, NonemptyInv m → (candidates m).length = m.length) := by
  refine ⟨?_, ?_, ?_, candidates_length_eq⟩
  · intro selfKey draws
    exact nonempty_foldl_construct _ [] (fun x hx => absurd hx (List.not_mem_nil x))
  · intro selfKey m draws h
    exact nonempty_foldl_refresh _ m h
  · intro selfKey m peers h
    exact nonempty_foldl_handle selfKey peers m h

theorem populated_buckets_nonempty_witness :
    NonemptyInv (new 0 [8, 9]) ∧
    NonemptyInv (try_refresh_candidates 0 [(3, [8])] [9]) ∧
    NonemptyInv (handle_get_closest_query 0 [(3, [8])] [9]) ∧
    (candidates [(3, [8]), (0, [1])]).length = ([(3, [8]), (0, [1])] : Buckets).length :=
  ⟨populated_buckets_nonempty.1 0 [8, 9],
    populated_buckets_nonempty.2.1 0 [(3, [8])] [9] (by decide),
    populated_buckets_nonempty.2.2.1 0 [(3, [8])] [9] (by decide),
    populated_buckets_nonempty.2.2.2 [(3, [8]), (0, [1])] (by decide)⟩

/-- C3, evaluated at the failing input: the claim that no queue contains
two identical addresses after `handle_get_closest_query` is violated by
the code. From the table built by `new` with draws 8..12 (local key 0,
bucket 3 = `[8, 9, 10, 11, 12]`), merging the already-contained peer 8
appends it again: the containment check only suppresses the eviction,
not the insertion, contradicting the source comment "extra check to
make sure we don't insert the same peer again". -/
theorem merge_appends_duplicate :
    findBucket (handle_get_closest_query 0 (new 0 [8, 9, 10, 11, 12]) [8]) 3
        = some [8, 9, 10, 11, 12, 8] ∧
    ¬ (∀ p ∈ handle_get_closest_query 0 (new 0 [8, 9, 10, 11, 12]) [8], p.2.Nodup) :=
  ⟨by decide, by decide⟩
end NetworkDiscovery
